import Mathlib

/-!
Shallow embedding of the superpermutation search core:
`src/bounds/mod.rs` (the waste-bound ledger `Bounds`),
`src/candidate/mod.rs` (the search state `Candidate`), and
`src/frontier/mod.rs` (the priority frontier `Frontier`),
together with theorems settling the specification claims about them.

Vectors of `usize` are modelled as `List Nat`; in-bounds indexing
(`v[i]`, which panics out of bounds in Rust but is always in bounds
where the source performs it) is modelled by `List.getD · · 0`.
Arithmetic on `usize` is modelled as `Nat` with explicit wrap-around
modulo `2 ^ 64` at the operations where overflow is possible.
-/

set_option maxRecDepth 8000

namespace Superperm

/-- Cardinality of the 64-bit `usize` type: `2 ^ 64`. -/
def U64 : Nat := 2 ^ 64

/-- The constant `std::usize::MAX`. -/
def USIZE_MAX : Nat := U64 - 1

/-- Wrapping 64-bit addition: the behaviour of `+` on `usize` values. -/
def wadd (a b : Nat) : Nat := (a + b) % U64

/-- Wrapping 64-bit subtraction: the behaviour of `-` on `usize` values.
For `b ≤ a < 2 ^ 64` it agrees with natural subtraction. -/
def wsub (a b : Nat) : Nat := (U64 + a - b) % U64

/-! ### The waste-bound ledger, from `src/bounds/mod.rs` -/

/-- The `Bounds` struct: per coverage count, a proven lower bound on waste,
a derived upper bound, and a normalized threshold. -/
structure Bounds where
  lower_bounds : List Nat
  upper_bounds : List Nat
  thresholds : List Nat
deriving DecidableEq

/-- `Bounds::new`: index 0 holds lower bound 0, upper bound `usize::MAX`,
threshold 0. -/
def Bounds.new : Bounds :=
  { lower_bounds := [0], upper_bounds := [USIZE_MAX], thresholds := [0] }

/-- `Bounds::increase_lower_bound`: store the new lower bound and refresh the
threshold as `bound - lower_bounds[0]` (read after the store, wrapping). -/
def Bounds.increase_lower_bound (B : Bounds) (index bound : Nat) : Bounds :=
  let lb := B.lower_bounds.set index bound
  { lower_bounds := lb
    upper_bounds := B.upper_bounds
    thresholds := B.thresholds.set index (wsub bound (lb.getD 0 0)) }

/-- `Bounds::fix_upper_bound`: collapse the upper bound at `index` to the
lower bound there. -/
def Bounds.fix_upper_bound (B : Bounds) (index : Nat) : Bounds :=
  { B with upper_bounds := B.upper_bounds.set index (B.lower_bounds.getD index 0) }

/-- `Bounds::decrease_upper_bound`: recompute the upper bound at `index` as
`lower_bounds[index] + upper_bounds[0]` (wrapping `usize` addition). -/
def Bounds.decrease_upper_bound (B : Bounds) (index : Nat) : Bounds :=
  { B with
    upper_bounds :=
      B.upper_bounds.set index (wadd (B.lower_bounds.getD index 0) (B.upper_bounds.getD 0 0)) }

/-- Model of `Vec::resize(new_len, fill)`. -/
def vecResize (l : List Nat) (newLen fill : Nat) : List Nat :=
  l.take newLen ++ List.replicate (newLen - l.length) fill

/-- `Bounds::add_new_index`: extend all three tables to `index + 1`, seed the
new lower bounds with `max(bound, last_bound)`, collapse the upper bounds from
the old last index up to (excluding) `index`, then derive the upper bound at
`index`. -/
def Bounds.add_new_index (B : Bounds) (index bound : Nat) : Bounds :=
  let previous_len := B.lower_bounds.length
  let last_bound := B.lower_bounds.getLastD 0
  let B1 : Bounds :=
    { lower_bounds := vecResize B.lower_bounds (index + 1) 0
      upper_bounds := vecResize B.upper_bounds (index + 1) USIZE_MAX
      thresholds := vecResize B.thresholds (index + 1) 0 }
  let B2 := (List.range' previous_len (index + 1 - previous_len)).foldl
    (fun b i => b.increase_lower_bound i (max bound last_bound)) B1
  let B3 := (List.range' (previous_len - 1) (index - (previous_len - 1))).foldl
    (fun b i => b.fix_upper_bound i) B2
  B3.decrease_upper_bound index

/-- `Bounds::update`: extend when `index` is untracked (returning `true`),
tighten when the new bound is strictly greater (returning `true`), otherwise
leave the ledger unchanged and return `false`.  The `bound` argument is a
`usize`, hence reduced modulo `2 ^ 64`. -/
def Bounds.update (B : Bounds) (index bound : Nat) : Bounds × Bool :=
  let bound := bound % U64
  if B.lower_bounds.length ≤ index then (B.add_new_index index bound, true)
  else if B.lower_bounds.getD index 0 < bound then (B.increase_lower_bound index bound, true)
  else (B, false)

/-- Point query of a stored lower bound (`lower_bounds[i]`). -/
def Bounds.lowerBound (B : Bounds) (i : Nat) : Nat := B.lower_bounds.getD i 0

/-- Point query of a stored upper bound (`upper_bounds[i]`). -/
def Bounds.upperBound (B : Bounds) (i : Nat) : Nat := B.upper_bounds.getD i 0

/-- Point query of a stored threshold (`thresholds[i]`). -/
def Bounds.threshold (B : Bounds) (i : Nat) : Nat := B.thresholds.getD i 0

/-- Structural well-formedness of the ledger: the three tables have equal,
positive length.  It holds for `Bounds::new` and is preserved by `update`. -/
def Bounds.Wf (B : Bounds) : Prop :=
  B.lower_bounds.length = B.upper_bounds.length ∧
  B.lower_bounds.length = B.thresholds.length ∧
  1 ≤ B.lower_bounds.length

instance (B : Bounds) : Decidable B.Wf := by
  unfold Bounds.Wf; infer_instance

/-- Replay a list of `(count, value)` calls against the ledger. -/
def Bounds.runCalls (B : Bounds) : List (Nat × Nat) → Bounds
  | [] => B
  | (c, v) :: rest => ((B.update c v).1).runCalls rest

/-! ### Monotonicity of the lower bounds under in-order call sequences -/

/-- A call sequence is in order when each call's count is at least the
currently tracked last index (in particular, non-decreasing counts). -/
def Bounds.goodCalls (B : Bounds) : List (Nat × Nat) → Bool
  | [] => true
  | (c, v) :: rest =>
    decide (B.lower_bounds.length - 1 ≤ c) && ((B.update c v).1).goodCalls rest

/-- Well-formedness together with monotone stored lower bounds. -/
def MonoWf (B : Bounds) : Prop :=
  B.Wf ∧ ∀ i j, i ≤ j → j < B.lower_bounds.length → B.lowerBound i ≤ B.lowerBound j

/-! ### The search state, from `src/candidate/mod.rs` -/

/-- Model of `Iterator::position` on a list of symbols: index of the first
occurrence of `symbol`, if any. -/
def position (l : List Nat) (symbol : Nat) : Option Nat :=
  match l with
  | [] => none
  | x :: xs => if x = symbol then some 0 else (position xs symbol).map (· + 1)

/-- Modelled from the spec: the external `lehmer` crate
(`Lehmer::from_permutation(p).to_decimal()`), per spec section 3 the
factorial-number-system (Lehmer) encoding of an ordering: the digit of
element `i` counts the later elements smaller than it, weighted by the
factorial of the number of remaining positions. -/
def lehmerFromPermutation : List Nat → Nat
  | [] => 0
  | x :: xs =>
    (xs.countP (fun y => decide (y < x))) * Nat.factorial xs.length
      + lehmerFromPermutation xs

/-- The `Candidate` struct: covered permutation ids (the `BitSet` modelled as
a `Finset`), the trailing window of the implicit string, and the count of
wasted symbols. -/
structure Candidate where
  permutations_seen : Finset Nat
  tail_of_string : List Nat
  wasted_symbols : Nat
deriving DecidableEq

/-- `Candidate::permutation_id`: id of `tail_of_string` followed by `symbol`;
the source narrows each symbol to `u8`, hence the reduction modulo 256
(vacuous for the reachable states, whose symbols are below `n`). -/
def Candidate.permutation_id (tail_of_string : List Nat) (symbol : Nat) : Nat :=
  lehmerFromPermutation ((tail_of_string ++ [symbol]).map (fun e => e % 256))

/-- `Candidate::append`. -/
def Candidate.appendSym (slice : List Nat) (symbol : Nat) : List Nat :=
  slice ++ [symbol]

/-- `Candidate::seed`: tail `(1..n)`, the identity permutation (id 0) seen,
no waste. -/
def Candidate.seed (n : Nat) : Candidate :=
  { permutations_seen := {0}
    tail_of_string := List.range' 1 (n - 1)
    wasted_symbols := 0 }

/-- `Candidate::number_of_permutations` (`BitSet::len` counts the set bits). -/
def Candidate.number_of_permutations (c : Candidate) : Nat :=
  c.permutations_seen.card

/-- `Candidate::future_waste`: `n - tail.len() - 1` on `usize` (the
subtraction never underflows on reachable states, see claim C10). -/
def Candidate.future_waste (c : Candidate) (n : Nat) : Nat :=
  n - c.tail_of_string.length - 1

/-- `Candidate::total_waste`. -/
def Candidate.total_waste (c : Candidate) (n : Nat) : Nat :=
  c.wasted_symbols + c.future_waste n

/-- `Candidate::less_than_full`. -/
def Candidate.less_than_full (tail_of_string : List Nat) (n : Nat) : Bool :=
  decide (tail_of_string.length < n - 1)

/-- `Candidate::tail_starts_with` (`first().unwrap()`; the tail is non-empty
on every reachable state). -/
def Candidate.tail_starts_with (c : Candidate) (symbol : Nat) : Bool :=
  decide (symbol = c.tail_of_string.headD 0)

/-- `Candidate::build_tail`: drop everything up to and including the first
occurrence of `symbol` if present, else keep the whole (warm-up) or all but
the first element (full window), then append `symbol`. -/
def Candidate.build_tail (c : Candidate) (symbol n : Nat) : List Nat :=
  let head := c.tail_of_string
  let index := match position head symbol with
    | some i => i + 1
    | none => if Candidate.less_than_full head n then 0 else 1
  Candidate.appendSym (head.drop index) symbol

/-- `Candidate::seen_next_tail_as_well`: find the smallest symbol below `n`
missing from the new tail and test whether the permutation obtained by
appending it is already covered. -/
def Candidate.seen_next_tail_as_well (c : Candidate) (tail_of_string : List Nat)
    (n : Nat) : Bool :=
  match (List.range n).find? (fun s => decide (¬ s ∈ tail_of_string)) with
  | some s => decide (Candidate.permutation_id tail_of_string s ∈ c.permutations_seen)
  | none => false

/-- `Candidate::candidate_with_wasted_symbol`. -/
def Candidate.candidate_with_wasted_symbol (c : Candidate) (tail_of_string : List Nat)
    (penalty : Nat) : Candidate :=
  { permutations_seen := c.permutations_seen
    tail_of_string := tail_of_string
    wasted_symbols := c.wasted_symbols + penalty }

/-- `Candidate::candidate_with_new_permutation`. -/
def Candidate.candidate_with_new_permutation (c : Candidate) (tail_of_string : List Nat)
    (id : Nat) : Candidate :=
  { permutations_seen := insert id c.permutations_seen
    tail_of_string := tail_of_string
    wasted_symbols := c.wasted_symbols }

/-- `Candidate::expand_one`: the five mutually exclusive branches. -/
def Candidate.expand_one (c : Candidate) (symbol : Nat) (at_upper_bound : Bool)
    (n : Nat) : Candidate :=
  let tail_of_string := c.build_tail symbol n
  if Candidate.less_than_full c.tail_of_string n then
    c.candidate_with_wasted_symbol tail_of_string 1
  else if Candidate.less_than_full tail_of_string n then
    c.candidate_with_wasted_symbol tail_of_string 1
  else if c.tail_starts_with symbol then
    c.candidate_with_wasted_symbol tail_of_string 1
  else if at_upper_bound then
    c.candidate_with_wasted_symbol tail_of_string 1
  else
    let id := Candidate.permutation_id c.tail_of_string symbol
    if id ∈ c.permutations_seen then
      c.candidate_with_wasted_symbol tail_of_string
        (if c.seen_next_tail_as_well tail_of_string n then 2 else 1)
    else
      c.candidate_with_new_permutation tail_of_string id

/-- Last symbol of the tail (`last().unwrap()`; non-empty on reachable
states). -/
def Candidate.lastSymbol (c : Candidate) : Nat :=
  c.tail_of_string.getLastD 0

/-- `Candidate::expand`: one child per symbol in `[0, n)` other than the last
tail symbol. -/
def Candidate.expand (c : Candidate) (upper_bound n : Nat) : List Candidate :=
  ((List.range n).filter (fun s => s ≠ c.lastSymbol)).map
    (fun s => c.expand_one s (c.number_of_permutations == upper_bound) n)

/-- States reachable from `seed(n)` by repeated expansion (with any coverage
ceiling supplied at each step). -/
inductive Reachable (n : Nat) : Candidate → Prop
  | seed : Reachable n (Candidate.seed n)
  | step (c c' : Candidate) (ub : Nat) :
      Reachable n c → c' ∈ c.expand ub n → Reachable n c'

/-- Structural invariant of reachable states: the tail window is a non-empty
duplicate-free list of symbols below `n` of length at most `n - 1`. -/
def Inv (n : Nat) (c : Candidate) : Prop :=
  c.tail_of_string ≠ [] ∧ c.tail_of_string.Nodup ∧
  (∀ s ∈ c.tail_of_string, s < n) ∧ c.tail_of_string.length ≤ n - 1

/-- Apply `expand_one` along a list of symbols, with a fixed coverage
ceiling, mirroring a branch of the driver loop. -/
def runMoves (c : Candidate) (ub n : Nat) : List Nat → Candidate
  | [] => c
  | s :: rest =>
    runMoves (c.expand_one s (c.number_of_permutations == ub) n) ub n rest

/-- A move list is valid when each symbol is below `n` and differs from the
current last tail symbol, so that each step is one of `expand`'s children. -/
def validMoves (c : Candidate) (ub n : Nat) : List Nat → Bool
  | [] => true
  | s :: rest =>
    decide (s < n) && decide (s ≠ c.lastSymbol) &&
      validMoves (c.expand_one s (c.number_of_permutations == ub) n) ub n rest

/-- Symbol walk used below: the 29 symbols completing the known minimal
superpermutation on 4 symbols (`0123 0120 3120 1320 1023 1021 3021 0321 0`,
written contiguously) followed by one further symbol (`1`, the middle of the
final window) that shrinks the tail window of the terminal state. -/
def c9Moves : List Nat :=
  [0, 1, 2, 0, 3, 1, 2, 0, 1, 3, 2, 0, 1, 0, 2, 3, 1, 0, 2, 1, 3, 0, 2, 1, 0,
   3, 2, 1, 0, 1]

/-! ### The frontier, from `src/frontier/mod.rs` -/

/-- Modelled from the spec: the `Frontier` wraps the external `bucket_queue`
crate (`BucketQueue<BucketQueue<VecDeque<Candidate>>>`), which is not part of
this repository.  Per spec section 4.3 it holds the pending states keyed by
`total_waste` (primary, ascending) and `permutations_seen.len()` (secondary,
descending); here it is a list of `(primary key, secondary key, state)`
entries in insertion order. -/
structure Frontier where
  entries : List (Nat × Nat × Candidate)
deriving DecidableEq

/-- `Frontier::new`. -/
def Frontier.new : Frontier := { entries := [] }

/-- `Frontier::add`: file the candidate under its `total_waste(n)` bucket with
secondary key `permutations_seen.len()`. -/
def Frontier.add (f : Frontier) (candidate : Candidate) (n : Nat) : Frontier :=
  { entries := f.entries
      ++ [(candidate.total_waste n, candidate.number_of_permutations, candidate)] }

/-- Modelled from the spec: strict priority order of the two-level bucket
queue — smaller primary key first, larger secondary key first within a
primary key. -/
def betterKey (a b : Nat × Nat) : Bool :=
  decide (a.1 < b.1) || (decide (a.1 = b.1) && decide (b.2 < a.2))

/-- Modelled from the spec: the entry `removeBest` selects — smallest primary
key, ties broken by largest secondary key, earliest-inserted among exact
ties. -/
def pickBest : List (Nat × Nat × Candidate) → Option (Nat × Nat × Candidate)
  | [] => none
  | e :: es =>
    match pickBest es with
    | none => some e
    | some b => if betterKey (b.1, b.2.1) (e.1, e.2.1) then some b else some e

/-- `Frontier::next` (`removeBest`): remove and return the best pending
state, or `none` when no states remain. -/
def Frontier.next (f : Frontier) : Option (Candidate × Frontier) :=
  match pickBest f.entries with
  | none => none
  | some e => some (e.2.2, { entries := f.entries.erase e })

/-- Key discipline of a frontier: every stored entry carries exactly the keys
`add` computes from its candidate.  `add` establishes it and `next` preserves
it. -/
def Frontier.Wf (f : Frontier) (n : Nat) : Prop :=
  ∀ e ∈ f.entries,
    e.1 = e.2.2.total_waste n ∧ e.2.1 = e.2.2.number_of_permutations

instance (f : Frontier) (n : Nat) : Decidable (f.Wf n) := by
  unfold Frontier.Wf; infer_instance

/-- Fixture for the frontier claim: a partially warmed-up state whose waste
estimate for n = 3 is `5 + (3 - 1 - 1) = 6`. -/
def slowCandidate : Candidate :=
  { permutations_seen := {0}, tail_of_string := [1], wasted_symbols := 5 }

/-- Fixture: a two-state frontier holding `slowCandidate` (estimate 6) and
`seed 3` (estimate 0). -/
def exampleFrontier : Frontier :=
  (Frontier.new.add slowCandidate 3).add (Candidate.seed 3) 3


theorem wadd_eq (a b : Nat) (h : a + b < U64) : wadd a b = a + b := by
  simp [wadd, Nat.mod_eq_of_lt h]

theorem wsub_eq (a b : Nat) (hba : b ≤ a) (ha : a < U64) : wsub a b = a - b := by
  have h1 : U64 + a - b = U64 + (a - b) := by omega
  have h2 : a - b < U64 := by omega
  simp [wsub, h1, Nat.add_mod_left, Nat.mod_eq_of_lt h2]

/-! ### List indexing helper lemmas -/

theorem getD_set_self (l : List Nat) (i x d : Nat) (h : i < l.length) :
    (l.set i x).getD i d = x := by
  induction l generalizing i with
  | nil => simp at h
  | cons a as ih =>
    cases i with
    | zero => simp [List.set]
    | succ j => simpa [List.set] using ih j (by simpa using h)

theorem getD_set_ne (l : List Nat) (i j x d : Nat) (h : i ≠ j) :
    (l.set i x).getD j d = l.getD j d := by
  induction l generalizing i j with
  | nil => simp [List.set]
  | cons a as ih =>
    cases i with
    | zero =>
      cases j with
      | zero => exact absurd rfl h
      | succ k => simp [List.set]
    | succ i' =>
      cases j with
      | zero => simp [List.set]
      | succ k => simpa [List.set] using ih i' k (fun hc => h (by omega))

theorem getD_eq_default (l : List Nat) (j d : Nat) (h : l.length ≤ j) :
    l.getD j d = d := by
  induction l generalizing j with
  | nil => simp
  | cons a as ih =>
    cases j with
    | zero => simp at h
    | succ k => simpa using ih k (by simpa using h)

theorem getD_append_left (l t : List Nat) (j d : Nat) (h : j < l.length) :
    (l ++ t).getD j d = l.getD j d := by
  induction l generalizing j with
  | nil => simp at h
  | cons a as ih =>
    cases j with
    | zero => simp
    | succ k => simpa using ih k (by simpa using h)

theorem getD_append_right (l t : List Nat) (j d : Nat) (h : l.length ≤ j) :
    (l ++ t).getD j d = t.getD (j - l.length) d := by
  induction l generalizing j with
  | nil => simp
  | cons a as ih =>
    cases j with
    | zero => simp at h
    | succ k =>
      have := ih k (by simpa using h)
      simpa [Nat.succ_sub_succ] using this

theorem getD_replicate (k x j d : Nat) (h : j < k) :
    (List.replicate k x).getD j d = x := by
  induction k generalizing j with
  | zero => omega
  | succ m ih =>
    cases j with
    | zero => simp [List.replicate]
    | succ i => simpa [List.replicate] using ih i (by omega)

theorem getD_default_irrel (l : List Nat) (j d d₂ : Nat) (h : j < l.length) :
    l.getD j d = l.getD j d₂ := by
  induction l generalizing j with
  | nil => simp at h
  | cons a as ih =>
    cases j with
    | zero => simp
    | succ k => simpa using ih k (by simpa using h)

theorem getLastD_eq_getD (l : List Nat) (d : Nat) (h : l ≠ []) :
    l.getLastD d = l.getD (l.length - 1) d := by
  induction l generalizing d with
  | nil => exact absurd rfl h
  | cons a as ih =>
    rw [List.getLastD_cons]
    cases has : as with
    | nil => simp
    | cons b bs =>
      rw [← has]
      have hne : as ≠ [] := by simp [has]
      have hpos : 0 < as.length := by simp [has]
      have h2 := ih a hne
      have h3 : (a :: as).length - 1 = (as.length - 1) + 1 := by
        simp only [List.length_cons]; omega
      rw [h3, List.getD_cons_succ, h2]
      exact getD_default_irrel as (as.length - 1) a d (by omega)

/-! ### Characterization of the `add_new_index` loops -/

theorem incrFold_spec (v : Nat) :
    ∀ (k start : Nat) (B : Bounds), 1 ≤ start →
    (((List.range' start k).foldl
        (fun b i => b.increase_lower_bound i v) B).upper_bounds = B.upper_bounds) ∧
    (((List.range' start k).foldl
        (fun b i => b.increase_lower_bound i v) B).lower_bounds.length
      = B.lower_bounds.length) ∧
    (((List.range' start k).foldl
        (fun b i => b.increase_lower_bound i v) B).thresholds.length
      = B.thresholds.length) ∧
    (∀ j, (j < start ∨ start + k ≤ j) →
      ((List.range' start k).foldl
        (fun b i => b.increase_lower_bound i v) B).lower_bounds.getD j 0
      = B.lower_bounds.getD j 0) ∧
    (∀ j, start ≤ j → j < start + k → j < B.lower_bounds.length →
      ((List.range' start k).foldl
        (fun b i => b.increase_lower_bound i v) B).lower_bounds.getD j 0 = v) ∧
    (∀ j, (j < start ∨ start + k ≤ j) →
      ((List.range' start k).foldl
        (fun b i => b.increase_lower_bound i v) B).thresholds.getD j 0
      = B.thresholds.getD j 0) ∧
    (∀ j, start ≤ j → j < start + k → j < B.thresholds.length →
      ((List.range' start k).foldl
        (fun b i => b.increase_lower_bound i v) B).thresholds.getD j 0
      = wsub v (B.lower_bounds.getD 0 0)) := by
  intro k
  induction k with
  | zero =>
    intro start B _
    refine ⟨rfl, rfl, rfl, fun j _ => rfl, fun j h1 h2 _ => by omega,
      fun j _ => rfl, fun j h1 h2 _ => by omega⟩
  | succ k ih =>
    intro start B hstart
    rw [List.range'_succ]
    simp only [List.foldl_cons]
    have hIH := ih (start + 1) (B.increase_lower_bound start v) (by omega)
    obtain ⟨hu, hll, htl, hlout, hlin, htout, htin⟩ := hIH
    set B1 := B.increase_lower_bound start v with hB1
    have hB1lower : B1.lower_bounds = B.lower_bounds.set start v := rfl
    have hB1upper : B1.upper_bounds = B.upper_bounds := rfl
    have hB1thr : B1.thresholds
        = B.thresholds.set start (wsub v ((B.lower_bounds.set start v).getD 0 0)) := rfl
    have hlb0 : (B.lower_bounds.set start v).getD 0 0 = B.lower_bounds.getD 0 0 :=
      getD_set_ne _ _ _ _ _ (by omega)
    refine ⟨by rw [hu, hB1upper], by rw [hll, hB1lower, List.length_set],
      by rw [htl, hB1thr, List.length_set], ?_, ?_, ?_, ?_⟩
    · intro j hj
      have hj' : j < start + 1 ∨ start + 1 + k ≤ j := by omega
      rw [hlout j hj', hB1lower, getD_set_ne _ _ _ _ _ (by omega)]
    · intro j hj1 hj2 hj3
      rcases Nat.eq_or_lt_of_le hj1 with heq | hlt
      · subst heq
        have hj' : start < start + 1 ∨ start + 1 + k ≤ start := by omega
        rw [hlout start hj', hB1lower, getD_set_self _ _ _ _ hj3]
      · exact hlin j (by omega) (by omega) (by rw [hB1lower, List.length_set]; exact hj3)
    · intro j hj
      have hj' : j < start + 1 ∨ start + 1 + k ≤ j := by omega
      rw [htout j hj', hB1thr, getD_set_ne _ _ _ _ _ (by omega)]
    · intro j hj1 hj2 hj3
      rcases Nat.eq_or_lt_of_le hj1 with heq | hlt
      · subst heq
        have hj' : start < start + 1 ∨ start + 1 + k ≤ start := by omega
        rw [htout start hj', hB1thr, getD_set_self _ _ _ _ hj3, hlb0]
      · rw [htin j (by omega) (by omega)
          (by rw [hB1thr, List.length_set]; exact hj3)]
        rw [hB1lower, hlb0]

theorem fixFold_spec :
    ∀ (k start : Nat) (B : Bounds),
    (((List.range' start k).foldl
        (fun b i => b.fix_upper_bound i) B).lower_bounds = B.lower_bounds) ∧
    (((List.range' start k).foldl
        (fun b i => b.fix_upper_bound i) B).thresholds = B.thresholds) ∧
    (((List.range' start k).foldl
        (fun b i => b.fix_upper_bound i) B).upper_bounds.length
      = B.upper_bounds.length) ∧
    (∀ j, (j < start ∨ start + k ≤ j) →
      ((List.range' start k).foldl
        (fun b i => b.fix_upper_bound i) B).upper_bounds.getD j 0
      = B.upper_bounds.getD j 0) ∧
    (∀ j, start ≤ j → j < start + k → j < B.upper_bounds.length →
      ((List.range' start k).foldl
        (fun b i => b.fix_upper_bound i) B).upper_bounds.getD j 0
      = B.lower_bounds.getD j 0) := by
  intro k
  induction k with
  | zero =>
    intro start B
    exact ⟨rfl, rfl, rfl, fun j _ => rfl, fun j h1 h2 _ => by omega⟩
  | succ k ih =>
    intro start B
    rw [List.range'_succ]
    simp only [List.foldl_cons]
    have hIH := ih (start + 1) (B.fix_upper_bound start)
    obtain ⟨hl, ht, hul, huout, huin⟩ := hIH
    set B1 := B.fix_upper_bound start with hB1
    have hB1lower : B1.lower_bounds = B.lower_bounds := rfl
    have hB1thr : B1.thresholds = B.thresholds := rfl
    have hB1upper : B1.upper_bounds
        = B.upper_bounds.set start (B.lower_bounds.getD start 0) := rfl
    refine ⟨by rw [hl, hB1lower], by rw [ht, hB1thr],
      by rw [hul, hB1upper, List.length_set], ?_, ?_⟩
    · intro j hj
      have hj' : j < start + 1 ∨ start + 1 + k ≤ j := by omega
      rw [huout j hj', hB1upper, getD_set_ne _ _ _ _ _ (by omega)]
    · intro j hj1 hj2 hj3
      rcases Nat.eq_or_lt_of_le hj1 with heq | hlt
      · subst heq
        have hj' : start < start + 1 ∨ start + 1 + k ≤ start := by omega
        rw [huout start hj', hB1upper, getD_set_self _ _ _ _ hj3]
      · rw [huin j (by omega) (by omega)
          (by rw [hB1upper, List.length_set]; exact hj3), hB1lower]

theorem vecResize_extend (l : List Nat) (newLen fill : Nat) (h : l.length ≤ newLen) :
    vecResize l newLen fill = l ++ List.replicate (newLen - l.length) fill := by
  unfold vecResize
  rw [List.take_of_length_le (by omega)]

/-- Full characterization of `Bounds::add_new_index` on a well-formed ledger:
lengths become `index + 1`; old lower bounds and thresholds are kept; new
indices get lower bound `max(bound, last_bound)` and the matching threshold;
upper bounds strictly below the old last index are kept, those from the old
last index up to (excluding) `index` collapse to their lower bounds, and the
one at `index` is derived from `upper_bounds[0]`. -/
theorem add_new_index_spec (B : Bounds) (index bound : Nat)
    (hWf : B.Wf) (hIdx : B.lower_bounds.length ≤ index) :
    ((B.add_new_index index bound).lower_bounds.length = index + 1) ∧
    ((B.add_new_index index bound).upper_bounds.length = index + 1) ∧
    ((B.add_new_index index bound).thresholds.length = index + 1) ∧
    (∀ j, j < B.lower_bounds.length →
      (B.add_new_index index bound).lowerBound j = B.lowerBound j) ∧
    (∀ j, B.lower_bounds.length ≤ j → j ≤ index →
      (B.add_new_index index bound).lowerBound j
        = max bound (B.lower_bounds.getLastD 0)) ∧
    (∀ j, j < B.lower_bounds.length - 1 →
      (B.add_new_index index bound).upperBound j = B.upperBound j) ∧
    (∀ j, B.lower_bounds.length - 1 ≤ j → j < index →
      (B.add_new_index index bound).upperBound j
        = (B.add_new_index index bound).lowerBound j) ∧
    ((B.add_new_index index bound).upperBound index
      = wadd (max bound (B.lower_bounds.getLastD 0))
          (if B.lower_bounds.length = 1 then B.lowerBound 0 else B.upperBound 0)) ∧
    (∀ j, j < B.lower_bounds.length →
      (B.add_new_index index bound).threshold j = B.threshold j) ∧
    (∀ j, B.lower_bounds.length ≤ j → j ≤ index →
      (B.add_new_index index bound).threshold j
        = wsub (max bound (B.lower_bounds.getLastD 0)) (B.lowerBound 0)) := by
  obtain ⟨hul, htl, hpos⟩ := hWf
  set L := B.lower_bounds.length with hLdef
  set m := max bound (B.lower_bounds.getLastD 0) with hmdef
  set B1 : Bounds :=
    { lower_bounds := vecResize B.lower_bounds (index + 1) 0
      upper_bounds := vecResize B.upper_bounds (index + 1) USIZE_MAX
      thresholds := vecResize B.thresholds (index + 1) 0 } with hB1def
  set B2 := (List.range' L (index + 1 - L)).foldl
      (fun b i => b.increase_lower_bound i m) B1 with hB2def
  set B3 := (List.range' (L - 1) (index - (L - 1))).foldl
      (fun b i => b.fix_upper_bound i) B2 with hB3def
  have hA : B.add_new_index index bound = B3.decrease_upper_bound index := rfl
  -- resized tables
  have hr1 : B1.lower_bounds = B.lower_bounds ++ List.replicate (index + 1 - L) 0 := by
    rw [hB1def]; exact vecResize_extend _ _ _ (by omega)
  have hr2 : B1.upper_bounds
      = B.upper_bounds ++ List.replicate (index + 1 - L) USIZE_MAX := by
    rw [hB1def]
    have := vecResize_extend B.upper_bounds (index + 1) USIZE_MAX (by omega)
    rw [this, ← hul]
  have hr3 : B1.thresholds = B.thresholds ++ List.replicate (index + 1 - L) 0 := by
    rw [hB1def]
    have := vecResize_extend B.thresholds (index + 1) 0 (by omega)
    rw [this, ← htl]
  have hl1 : B1.lower_bounds.length = index + 1 := by
    rw [hr1, List.length_append, List.length_replicate]; omega
  have hl2 : B1.upper_bounds.length = index + 1 := by
    rw [hr2, List.length_append, List.length_replicate]; omega
  have hl3 : B1.thresholds.length = index + 1 := by
    rw [hr3, List.length_append, List.length_replicate]; omega
  have hB1l_lo : ∀ j, j < L → B1.lower_bounds.getD j 0 = B.lower_bounds.getD j 0 := by
    intro j hj; rw [hr1]; exact getD_append_left _ _ _ _ (by omega)
  have hB1u_lo : ∀ j, j < L → B1.upper_bounds.getD j 0 = B.upper_bounds.getD j 0 := by
    intro j hj; rw [hr2]; exact getD_append_left _ _ _ _ (by omega)
  have hB1t_lo : ∀ j, j < L → B1.thresholds.getD j 0 = B.thresholds.getD j 0 := by
    intro j hj; rw [hr3]; exact getD_append_left _ _ _ _ (by omega)
  -- the increase loop
  have h2 := incrFold_spec m (index + 1 - L) L B1 hpos
  rw [← hB2def] at h2
  obtain ⟨h2u, h2ll, h2tl, h2lout, h2lin, h2tout, h2tin⟩ := h2
  have h2l_lo : ∀ j, j < L → B2.lower_bounds.getD j 0 = B.lower_bounds.getD j 0 := by
    intro j hj; rw [h2lout j (Or.inl hj)]; exact hB1l_lo j hj
  have h2l_hi : ∀ j, L ≤ j → j ≤ index → B2.lower_bounds.getD j 0 = m := by
    intro j hj1 hj2; exact h2lin j hj1 (by omega) (by omega)
  have h2t_lo : ∀ j, j < L → B2.thresholds.getD j 0 = B.thresholds.getD j 0 := by
    intro j hj; rw [h2tout j (Or.inl hj)]; exact hB1t_lo j hj
  have h2t_hi : ∀ j, L ≤ j → j ≤ index →
      B2.thresholds.getD j 0 = wsub m (B.lower_bounds.getD 0 0) := by
    intro j hj1 hj2
    rw [h2tin j hj1 (by omega) (by omega), hB1l_lo 0 (by omega)]
  -- the fix loop
  have h3 := fixFold_spec (index - (L - 1)) (L - 1) B2
  rw [← hB3def] at h3
  obtain ⟨h3l, h3t, h3ul, h3uout, h3uin⟩ := h3
  have h3ul' : B3.upper_bounds.length = index + 1 := by rw [h3ul, h2u, hl2]
  have h3ll : B3.lower_bounds.length = index + 1 := by rw [h3l, h2ll, hl1]
  -- final state
  have hAl : (B.add_new_index index bound).lower_bounds = B3.lower_bounds := by rw [hA]; rfl
  have hAt : (B.add_new_index index bound).thresholds = B3.thresholds := by rw [hA]; rfl
  have hAu : (B.add_new_index index bound).upper_bounds
      = B3.upper_bounds.set index (wadd (B3.lower_bounds.getD index 0)
          (B3.upper_bounds.getD 0 0)) := by rw [hA]; rfl
  have hu0 : B3.upper_bounds.getD 0 0
      = if L = 1 then B.lowerBound 0 else B.upperBound 0 := by
    by_cases hL1 : L = 1
    · rw [if_pos hL1]
      rw [h3uin 0 (by omega) (by omega) (by rw [h2u, hl2]; omega)]
      exact h2l_lo 0 (by omega)
    · rw [if_neg hL1]
      rw [h3uout 0 (Or.inl (by omega)), h2u]
      exact hB1u_lo 0 (by omega)
  have hlidx : B3.lower_bounds.getD index 0 = m := by
    rw [h3l]; exact h2l_hi index hIdx (le_refl index)
  refine ⟨?_, ?_, ?_, ?_, ?_, ?_, ?_, ?_, ?_, ?_⟩
  · rw [hAl, h3ll]
  · rw [hAu, List.length_set, h3ul']
  · rw [hAt, h3t, h2tl, hl3]
  · intro j hj
    show (B.add_new_index index bound).lower_bounds.getD j 0 = B.lower_bounds.getD j 0
    rw [hAl, h3l]; exact h2l_lo j hj
  · intro j hj1 hj2
    show (B.add_new_index index bound).lower_bounds.getD j 0 = m
    rw [hAl, h3l]; exact h2l_hi j hj1 hj2
  · intro j hj
    show (B.add_new_index index bound).upper_bounds.getD j 0 = B.upper_bounds.getD j 0
    rw [hAu, getD_set_ne _ _ _ _ _ (by omega)]
    rw [h3uout j (Or.inl (by omega)), h2u]
    exact hB1u_lo j (by omega)
  · intro j hj1 hj2
    show (B.add_new_index index bound).upper_bounds.getD j 0
      = (B.add_new_index index bound).lower_bounds.getD j 0
    rw [hAu, hAl, getD_set_ne _ _ _ _ _ (by omega)]
    rw [h3uin j hj1 (by omega) (by rw [h2u, hl2]; omega), h3l]
  · show (B.add_new_index index bound).upper_bounds.getD index 0
      = wadd m (if L = 1 then B.lowerBound 0 else B.upperBound 0)
    rw [hAu, getD_set_self _ _ _ _ (by rw [h3ul']; omega), hlidx, hu0]
  · intro j hj
    show (B.add_new_index index bound).thresholds.getD j 0 = B.thresholds.getD j 0
    rw [hAt, h3t]; exact h2t_lo j hj
  · intro j hj1 hj2
    show (B.add_new_index index bound).thresholds.getD j 0
      = wsub m (B.lower_bounds.getD 0 0)
    rw [hAt, h3t]; exact h2t_hi j hj1 hj2

/-! ### Branch lemmas for `Bounds::update` -/

theorem update_untracked (B : Bounds) (index bound : Nat)
    (h : B.lower_bounds.length ≤ index) :
    B.update index bound = (B.add_new_index index (bound % U64), true) := by
  simp only [Bounds.update]
  rw [if_pos h]

theorem update_tracked_tighten (B : Bounds) (index bound : Nat)
    (h : index < B.lower_bounds.length)
    (h2 : B.lower_bounds.getD index 0 < bound % U64) :
    B.update index bound = (B.increase_lower_bound index (bound % U64), true) := by
  simp only [Bounds.update]
  rw [if_neg (by omega), if_pos h2]

theorem update_tracked_keep (B : Bounds) (index bound : Nat)
    (h : index < B.lower_bounds.length)
    (h2 : bound % U64 ≤ B.lower_bounds.getD index 0) :
    B.update index bound = (B, false) := by
  simp only [Bounds.update]
  rw [if_neg (by omega), if_neg (by omega)]

theorem update_preserves_monoWf (B : Bounds) (c v : Nat)
    (hM : MonoWf B) (hc : B.lower_bounds.length - 1 ≤ c) :
    MonoWf ((B.update c v).1) := by
  obtain ⟨⟨hul, htl, hpos⟩, hmono⟩ := hM
  by_cases hext : B.lower_bounds.length ≤ c
  · rw [update_untracked B c v hext]
    obtain ⟨hL, hU, hT, hlo, hhi, _, _, _, _, _⟩ :=
      add_new_index_spec B c (v % U64) ⟨hul, htl, hpos⟩ hext
    have hlast : B.lower_bounds.getLastD 0 = B.lowerBound (B.lower_bounds.length - 1) :=
      getLastD_eq_getD _ _ (by intro hnil; rw [hnil] at hpos; simp at hpos)
    refine ⟨⟨by rw [hL, hU], by rw [hL, hT], by rw [hL]; omega⟩, ?_⟩
    intro i j hij hj
    rw [hL] at hj
    by_cases hiL : i < B.lower_bounds.length
    · by_cases hjL : j < B.lower_bounds.length
      · rw [hlo i hiL, hlo j hjL]
        exact hmono i j hij hjL
      · rw [hlo i hiL, hhi j (by omega) (by omega)]
        have h1 : B.lowerBound i ≤ B.lowerBound (B.lower_bounds.length - 1) :=
          hmono i _ (by omega) (by omega)
        rw [hlast]
        omega
    · rw [hhi i (by omega) (by omega), hhi j (by omega) (by omega)]
  · have hcL : c < B.lower_bounds.length := by omega
    by_cases hlt : B.lower_bounds.getD c 0 < v % U64
    · rw [update_tracked_tighten B c v hcL hlt]
      have hresl : (B.increase_lower_bound c (v % U64)).lower_bounds
          = B.lower_bounds.set c (v % U64) := rfl
      have hresu : (B.increase_lower_bound c (v % U64)).upper_bounds
          = B.upper_bounds := rfl
      obtain ⟨w, hrest⟩ : ∃ w, (B.increase_lower_bound c (v % U64)).thresholds
          = B.thresholds.set c w := ⟨_, rfl⟩
      refine ⟨⟨?_, ?_, ?_⟩, ?_⟩
      · rw [hresl, hresu, List.length_set]
        exact hul
      · rw [hresl, hrest, List.length_set, List.length_set]
        exact htl
      · rw [hresl, List.length_set]
        exact hpos
      · intro i j hij hj
        rw [hresl, List.length_set] at hj
        have hlbeq : ∀ x, (B.increase_lower_bound c (v % U64)).lowerBound x
            = (B.lower_bounds.set c (v % U64)).getD x 0 := fun x => rfl
        rw [hlbeq i, hlbeq j]
        by_cases hjc : j = c
        · rw [hjc, getD_set_self _ _ _ _ hcL]
          by_cases hic : i = c
          · rw [hic, getD_set_self _ _ _ _ hcL]
          · rw [getD_set_ne _ _ _ _ _ (fun hcc => hic hcc.symm)]
            have hmono' : B.lower_bounds.getD i 0 ≤ B.lower_bounds.getD c 0 :=
              hmono i c (by omega) hcL
            omega
        · have hjlt : j < c := by omega
          rw [getD_set_ne _ _ _ _ _ (by omega), getD_set_ne _ _ _ _ _ (by omega)]
          exact hmono i j hij (by omega)
    · rw [update_tracked_keep B c v hcL (by omega)]
      exact ⟨⟨hul, htl, hpos⟩, hmono⟩

theorem goodCalls_preserves_monoWf (calls : List (Nat × Nat)) :
    ∀ B, MonoWf B → B.goodCalls calls = true → MonoWf (B.runCalls calls) := by
  induction calls with
  | nil => intro B hM _; exact hM
  | cons p rest ih =>
    obtain ⟨c, v⟩ := p
    intro B hM hg
    simp only [Bounds.goodCalls, Bool.and_eq_true, decide_eq_true_eq] at hg
    simp only [Bounds.runCalls]
    exact ih _ (update_preserves_monoWf B c v hM hg.1) hg.2

theorem monoWf_new : MonoWf Bounds.new := by
  refine ⟨⟨rfl, rfl, by simp [Bounds.new]⟩, ?_⟩
  intro i j hij hj
  simp only [Bounds.new, List.length_cons, List.length_nil] at hj
  have hj0 : j = 0 := by omega
  have hi0 : i = 0 := by omega
  rw [hi0, hj0]

/-! ### Claims C5 to C8 about the waste-bound ledger -/

/-- C5 (amended): immediately after an `update` call that extends the tracked
range to `count` — provided `upperBound(0) = lowerBound(0)` held, or the
ledger was still at its initial single tracked index (in which case the call
itself fixes `upperBound(0)` to `lowerBound(0)` first), and no 64-bit overflow
occurs — the stored upper bound at `count` equals the stored lower bound at
`count` plus the stored lower bound at index 0.  The identity is established
at extension time only: a later increase of a lower bound leaves every stored
upper bound unchanged. -/
theorem claim_c5 (B : Bounds) (count v : Nat)
    (hWf : B.Wf) (hext : B.lower_bounds.length ≤ count)
    (hanchor : B.lower_bounds.length = 1 ∨ B.upperBound 0 = B.lowerBound 0)
    (hv : v < U64)
    (hsum : max v (B.lower_bounds.getLastD 0) + B.lowerBound 0 < U64) :
    (B.update count v).1.upperBound count
      = (B.update count v).1.lowerBound count + (B.update count v).1.lowerBound 0 := by
  obtain ⟨hul, htl, hpos⟩ := hWf
  have hv' : v % U64 = v := Nat.mod_eq_of_lt hv
  rw [update_untracked B count v hext]
  obtain ⟨_, _, _, hlo, hhi, _, _, hidx, _, _⟩ :=
    add_new_index_spec B count (v % U64) ⟨hul, htl, hpos⟩ hext
  show (B.add_new_index count (v % U64)).upperBound count
    = (B.add_new_index count (v % U64)).lowerBound count
      + (B.add_new_index count (v % U64)).lowerBound 0
  rw [hidx, hhi count hext (le_refl _), hlo 0 (by omega), hv']
  have hif : (if B.lower_bounds.length = 1 then B.lowerBound 0 else B.upperBound 0)
      = B.lowerBound 0 := by
    rcases hanchor with h1 | h2
    · rw [if_pos h1]
    · by_cases h1 : B.lower_bounds.length = 1
      · rw [if_pos h1]
      · rw [if_neg h1, h2]
  rw [hif]
  exact wadd_eq _ _ hsum

/-- C5 counterexample: after `update(1, 5)` (an extension that set the upper
bound at index 1) followed by `update(0, 3)` (which raises `lowerBound(0)`),
the stored upper bound at index 1 is 5 while
`lowerBound(1) + lowerBound(0) = 5 + 3 = 8`: the claimed invariant fails. -/
theorem claim_c5_counterexample :
    1 < (Bounds.new.runCalls [(1, 5), (0, 3)]).lower_bounds.length ∧
    (Bounds.new.runCalls [(1, 5), (0, 3)]).upperBound 1
      ≠ (Bounds.new.runCalls [(1, 5), (0, 3)]).lowerBound 1
        + (Bounds.new.runCalls [(1, 5), (0, 3)]).lowerBound 0 := by
  exact ⟨by decide, by decide⟩

theorem claim_c5_witness :
    Bounds.new.Wf ∧ Bounds.new.lower_bounds.length ≤ 1 ∧
    (Bounds.new.lower_bounds.length = 1 ∨
      Bounds.new.upperBound 0 = Bounds.new.lowerBound 0) ∧
    (5 : Nat) < U64 ∧
    max 5 (Bounds.new.lower_bounds.getLastD 0) + Bounds.new.lowerBound 0 < U64 ∧
    (Bounds.new.update 1 5).1.upperBound 1
      = (Bounds.new.update 1 5).1.lowerBound 1 + (Bounds.new.update 1 5).1.lowerBound 0 :=
  ⟨by decide, by decide, Or.inl (by decide), by decide, by decide,
    claim_c5 Bounds.new 1 5 (by decide) (by decide) (Or.inl (by decide))
      (by decide) (by decide)⟩

/-- C6 (amended): after every sequence of `update` calls whose counts are in
order (each call's count at least the currently tracked last index, as in the
intended driver usage), the stored lower bounds are non-decreasing in index.
An out-of-order call can break this: raising an interior lower bound never
touches its successors. -/
theorem claim_c6 (calls : List (Nat × Nat))
    (hgood : Bounds.new.goodCalls calls = true)
    (i j : Nat) (hij : i ≤ j)
    (hj : j < (Bounds.new.runCalls calls).lower_bounds.length) :
    (Bounds.new.runCalls calls).lowerBound i
      ≤ (Bounds.new.runCalls calls).lowerBound j :=
  (goodCalls_preserves_monoWf calls Bounds.new monoWf_new hgood).2 i j hij hj

/-- C6 counterexample: after `update(2, 5)` then `update(1, 7)` the stored
lower bounds are `[0, 7, 5]`: the bound at index 1 exceeds the bound at
index 2, refuting monotonicity for arbitrary call sequences. -/
theorem claim_c6_counterexample :
    2 < (Bounds.new.runCalls [(2, 5), (1, 7)]).lower_bounds.length ∧
    ¬ ((Bounds.new.runCalls [(2, 5), (1, 7)]).lowerBound 1
        ≤ (Bounds.new.runCalls [(2, 5), (1, 7)]).lowerBound 2) := by
  exact ⟨by decide, by decide⟩

theorem claim_c6_witness :
    Bounds.new.goodCalls [(2, 5), (2, 7)] = true ∧ (1 : Nat) ≤ 2 ∧
    2 < (Bounds.new.runCalls [(2, 5), (2, 7)]).lower_bounds.length ∧
    (Bounds.new.runCalls [(2, 5), (2, 7)]).lowerBound 1
      ≤ (Bounds.new.runCalls [(2, 5), (2, 7)]).lowerBound 2 :=
  ⟨by decide, by omega, by decide,
    claim_c6 [(2, 5), (2, 7)] (by decide) 1 2 (by omega) (by decide)⟩

/-- C7 (amended): when `update` is called with a count exceeding the tracked
range, every newly introduced index up to and including `count` gets lower
bound `max(value, lastKnownLowerBound)`, every upper bound at an index from
the old last index (inclusive, not exclusive as claimed) up to but excluding
`count` becomes equal to its own lower bound, and the call returns `true`. -/
theorem claim_c7 (B : Bounds) (count v j : Nat)
    (hWf : B.Wf) (hext : B.lower_bounds.length ≤ count) (hv : v < U64) :
    ((B.update count v).2 = true) ∧
    (B.lower_bounds.length ≤ j → j ≤ count →
      (B.update count v).1.lowerBound j = max v (B.lower_bounds.getLastD 0)) ∧
    (B.lower_bounds.length - 1 ≤ j → j < count →
      (B.update count v).1.upperBound j = (B.update count v).1.lowerBound j) := by
  have hv' : v % U64 = v := Nat.mod_eq_of_lt hv
  rw [update_untracked B count v hext]
  obtain ⟨_, _, _, _, hhi, _, hmid, _, _, _⟩ :=
    add_new_index_spec B count (v % U64) hWf hext
  refine ⟨rfl, ?_, ?_⟩
  · intro h1 h2
    show (B.add_new_index count (v % U64)).lowerBound j = max v (B.lower_bounds.getLastD 0)
    rw [hhi j h1 h2, hv']
  · intro h1 h2
    show (B.add_new_index count (v % U64)).upperBound j
      = (B.add_new_index count (v % U64)).lowerBound j
    exact hmid j h1 h2

/-- C7 counterexample: on a fresh ledger, `update(1, 5)` changes the upper
bound at the old last index 0 (from `usize::MAX` to 0, its own lower bound),
refuting "the upper bound at the old last index itself is unchanged". -/
theorem claim_c7_counterexample :
    (Bounds.new.update 1 5).1.upperBound 0 ≠ Bounds.new.upperBound 0 ∧
    (Bounds.new.update 1 5).1.upperBound 0 = (Bounds.new.update 1 5).1.lowerBound 0 := by
  exact ⟨by decide, by decide⟩

theorem claim_c7_witness :
    Bounds.new.Wf ∧ Bounds.new.lower_bounds.length ≤ 2 ∧ (7 : Nat) < U64 ∧
    ((Bounds.new.update 2 7).2 = true) ∧
    (Bounds.new.update 2 7).1.lowerBound 1
      = max 7 (Bounds.new.lower_bounds.getLastD 0) ∧
    (Bounds.new.update 2 7).1.upperBound 1 = (Bounds.new.update 2 7).1.lowerBound 1 :=
  ⟨by decide, by decide, by decide,
    (claim_c7 Bounds.new 2 7 1 (by decide) (by decide) (by decide)).1,
    (claim_c7 Bounds.new 2 7 1 (by decide) (by decide) (by decide)).2.1
      (by decide) (by decide),
    (claim_c7 Bounds.new 2 7 1 (by decide) (by decide) (by decide)).2.2
      (by decide) (by decide)⟩

/-- C8 (amended): for an already-tracked count, a value less than or equal to
the stored lower bound returns `false` with the ledger unchanged; a strictly
greater value returns `true`, makes `lowerBound(count)` return it, and — when
the value is at least the (post-call) `lowerBound(0)` — stores the threshold
`value - lowerBound(0)`; the source subtraction is unchecked `usize`
arithmetic and wraps modulo `2 ^ 64` otherwise. -/
theorem claim_c8 (B : Bounds) (count v : Nat)
    (hWf : B.Wf) (htr : count < B.lower_bounds.length) (hv : v < U64) :
    (v ≤ B.lowerBound count → B.update count v = (B, false)) ∧
    (B.lowerBound count < v →
      ((B.update count v).2 = true) ∧
      (B.update count v).1.lowerBound count = v ∧
      ((B.update count v).1.lowerBound 0 ≤ v →
        (B.update count v).1.threshold count
          = v - (B.update count v).1.lowerBound 0)) := by
  obtain ⟨hul, htl, hpos⟩ := hWf
  have hv' : v % U64 = v := Nat.mod_eq_of_lt hv
  constructor
  · intro hle
    exact update_tracked_keep B count v htr (by rw [hv']; exact hle)
  · intro hgt
    rw [update_tracked_tighten B count v htr (by rw [hv']; exact hgt)]
    have hlb : (B.increase_lower_bound count (v % U64)).lowerBound count = v := by
      show (B.lower_bounds.set count (v % U64)).getD count 0 = v
      rw [getD_set_self _ _ _ _ htr, hv']
    refine ⟨rfl, hlb, ?_⟩
    intro hle
    show (B.thresholds.set count
        (wsub (v % U64) ((B.lower_bounds.set count (v % U64)).getD 0 0))).getD count 0
      = v - (B.increase_lower_bound count (v % U64)).lowerBound 0
    rw [getD_set_self _ _ _ _ (by omega), hv']
    have heq : (B.increase_lower_bound count (v % U64)).lowerBound 0
        = (B.lower_bounds.set count (v % U64)).getD 0 0 := rfl
    rw [heq, hv'] at hle
    exact wsub_eq _ _ hle hv

/-- C8 counterexample: after `update(1, 0)` then `update(0, 5)` the ledger
stores lower bounds `[5, 0]`; the tracked call `update(1, 3)` then takes the
strictly-greater branch but stores threshold `(3 - 5) mod 2^64 = 2^64 - 2`,
not `value - lowerBound(0)`. -/
theorem claim_c8_counterexample :
    1 < (Bounds.new.runCalls [(1, 0), (0, 5)]).lower_bounds.length ∧
    (Bounds.new.runCalls [(1, 0), (0, 5)]).lowerBound 1 < 3 ∧
    (((Bounds.new.runCalls [(1, 0), (0, 5)]).update 1 3).2 = true) ∧
    ((Bounds.new.runCalls [(1, 0), (0, 5)]).update 1 3).1.threshold 1
      ≠ 3 - ((Bounds.new.runCalls [(1, 0), (0, 5)]).update 1 3).1.lowerBound 0 := by
  exact ⟨by decide, by decide, by decide, by decide⟩

theorem claim_c8_witness :
    Bounds.new.Wf ∧ (0 : Nat) < Bounds.new.lower_bounds.length ∧ (4 : Nat) < U64 ∧
    Bounds.new.lowerBound 0 < 4 ∧
    ((Bounds.new.update 0 4).2 = true) ∧
    (Bounds.new.update 0 4).1.lowerBound 0 = 4 ∧
    (Bounds.new.update 0 4).1.threshold 0
      = 4 - (Bounds.new.update 0 4).1.lowerBound 0 :=
  ⟨by decide, by decide, by decide, by decide,
    ((claim_c8 Bounds.new 0 4 (by decide) (by decide) (by decide)).2 (by decide)).1,
    ((claim_c8 Bounds.new 0 4 (by decide) (by decide) (by decide)).2 (by decide)).2.1,
    ((claim_c8 Bounds.new 0 4 (by decide) (by decide) (by decide)).2 (by decide)).2.2
      (by decide)⟩

/-! ### Search-state helper lemmas -/

theorem getLastD_mem : ∀ (l : List Nat), l ≠ [] → ∀ d, l.getLastD d ∈ l := by
  intro l
  induction l with
  | nil => intro h; exact absurd rfl h
  | cons a as ih =>
    intro _ d
    rw [List.getLastD_cons]
    cases has : as with
    | nil => simp [has]
    | cons b bs =>
      rw [← has]
      exact List.mem_cons_of_mem a (ih (by simp [has]) a)

theorem getLastD_concat (xs : List Nat) (x d : Nat) : (xs ++ [x]).getLastD d = x := by
  induction xs generalizing d with
  | nil => rfl
  | cons a as ih =>
    rw [List.cons_append, List.getLastD_cons]
    exact ih a

theorem position_eq_none (l : List Nat) (s : Nat) :
    position l s = none ↔ ¬ s ∈ l := by
  induction l with
  | nil => simp [position]
  | cons x xs ih =>
    simp only [position]
    by_cases hx : x = s
    · simp [hx]
    · rw [if_neg hx]
      simp only [Option.map_eq_none', ih, List.mem_cons]
      constructor
      · intro h hmem
        rcases hmem with h1 | h2
        · exact hx h1.symm
        · exact h h2
      · intro h h2
        exact h (Or.inr h2)

theorem position_lt_length (l : List Nat) (s i : Nat) (h : position l s = some i) :
    i < l.length := by
  induction l generalizing i with
  | nil => simp [position] at h
  | cons x xs ih =>
    simp only [position] at h
    by_cases hx : x = s
    · rw [if_pos hx] at h
      cases h
      simp
    · rw [if_neg hx] at h
      rcases Option.map_eq_some'.mp h with ⟨j, hj, hji⟩
      have := ih j hj
      simp only [List.length_cons]
      omega

theorem position_nodup_not_mem_drop (l : List Nat) (s i : Nat)
    (h : position l s = some i) (hnd : l.Nodup) : ¬ s ∈ l.drop (i + 1) := by
  induction l generalizing i with
  | nil => simp [position] at h
  | cons x xs ih =>
    simp only [position] at h
    by_cases hx : x = s
    · rw [if_pos hx] at h
      cases h
      subst hx
      simpa using (List.nodup_cons.mp hnd).1
    · rw [if_neg hx] at h
      rcases Option.map_eq_some'.mp h with ⟨j, hj, hji⟩
      rw [← hji]
      simpa using ih j hj (List.nodup_cons.mp hnd).2

theorem nodup_append_singleton (l : List Nat) (s : Nat) (hnd : l.Nodup)
    (hs : ¬ s ∈ l) : (l ++ [s]).Nodup := by
  induction l with
  | nil => simp
  | cons x xs ih =>
    rcases List.nodup_cons.mp hnd with ⟨hx, hxs⟩
    rw [List.cons_append, List.nodup_cons]
    constructor
    · intro hmem
      rcases List.mem_append.mp hmem with h1 | h2
      · exact hx h1
      · simp only [List.mem_singleton] at h2
        exact hs (by rw [h2]; exact List.mem_cons_self s xs)
    · exact ih hxs (fun hmem => hs (List.mem_cons_of_mem x hmem))

theorem build_tail_inv (c : Candidate) (s n : Nat) (hI : Inv n c) (hn : 2 ≤ n)
    (hs : s < n) :
    c.build_tail s n ≠ [] ∧ (c.build_tail s n).Nodup ∧
    (∀ x ∈ c.build_tail s n, x < n) ∧ (c.build_tail s n).length ≤ n - 1 := by
  obtain ⟨hne, hnd, hlt, hlen⟩ := hI
  have hlen1 : 1 ≤ c.tail_of_string.length := by
    cases hcase : c.tail_of_string with
    | nil => exact absurd hcase hne
    | cons a as => simp [hcase]
  simp only [Candidate.build_tail, Candidate.appendSym]
  cases hpos : position c.tail_of_string s with
  | some i =>
    have hi : i < c.tail_of_string.length := position_lt_length _ _ _ hpos
    have hnmem : ¬ s ∈ c.tail_of_string.drop (i + 1) :=
      position_nodup_not_mem_drop _ _ _ hpos hnd
    refine ⟨by simp, ?_, ?_, ?_⟩
    · exact nodup_append_singleton _ _
        ((List.drop_sublist _ _).nodup hnd) hnmem
    · intro x hx
      rcases List.mem_append.mp hx with h1 | h2
      · exact hlt x (List.drop_subset _ _ h1)
      · simp only [List.mem_singleton] at h2
        omega
    · rw [List.length_append, List.length_drop]
      simp only [List.length_cons, List.length_nil]
      have hx : c.tail_of_string.length - (i + 1) + (0 + 1) ≤ n - 1 := by omega
      exact hx
  | none =>
    have hnot : ¬ s ∈ c.tail_of_string := (position_eq_none _ _).mp hpos
    by_cases hfull : Candidate.less_than_full c.tail_of_string n = true
    · rw [if_pos hfull]
      have hshort : c.tail_of_string.length < n - 1 := by
        simpa [Candidate.less_than_full] using hfull
      refine ⟨by simp, ?_, ?_, ?_⟩
      · rw [List.drop_zero]
        exact nodup_append_singleton _ _ hnd hnot
      · intro x hx
        rw [List.drop_zero] at hx
        rcases List.mem_append.mp hx with h1 | h2
        · exact hlt x h1
        · simp only [List.mem_singleton] at h2
          omega
      · rw [List.length_append, List.drop_zero]
        simp only [List.length_cons, List.length_nil]
        omega
    · rw [if_neg hfull]
      refine ⟨by simp, ?_, ?_, ?_⟩
      · exact nodup_append_singleton _ _
          ((List.drop_sublist _ _).nodup hnd)
          (fun hmem => hnot (List.drop_subset _ _ hmem))
      · intro x hx
        rcases List.mem_append.mp hx with h1 | h2
        · exact hlt x (List.drop_subset _ _ h1)
        · simp only [List.mem_singleton] at h2
          omega
      · rw [List.length_append, List.length_drop]
        simp only [List.length_cons, List.length_nil]
        omega

theorem build_tail_getLast (c : Candidate) (s n : Nat) :
    (c.build_tail s n).getLastD 0 = s := by
  simp only [Candidate.build_tail, Candidate.appendSym]
  cases position c.tail_of_string s with
  | some i => exact getLastD_concat _ _ _
  | none => exact getLastD_concat _ _ _

theorem expand_one_tail (c : Candidate) (s : Nat) (b : Bool) (n : Nat) :
    (c.expand_one s b n).tail_of_string = c.build_tail s n := by
  simp only [Candidate.expand_one]
  split
  · rfl
  split
  · rfl
  split
  · rfl
  split
  · rfl
  split
  · rfl
  · rfl

theorem expand_one_seen (c : Candidate) (s : Nat) (b : Bool) (n : Nat) :
    c.permutations_seen ⊆ (c.expand_one s b n).permutations_seen := by
  simp only [Candidate.expand_one]
  split
  · exact Finset.Subset.refl _
  split
  · exact Finset.Subset.refl _
  split
  · exact Finset.Subset.refl _
  split
  · exact Finset.Subset.refl _
  split
  · exact Finset.Subset.refl _
  · exact Finset.subset_insert _ _

theorem expand_one_wasted (c : Candidate) (s : Nat) (b : Bool) (n : Nat) :
    c.wasted_symbols ≤ (c.expand_one s b n).wasted_symbols := by
  simp only [Candidate.expand_one]
  split
  · exact Nat.le_add_right _ _
  split
  · exact Nat.le_add_right _ _
  split
  · exact Nat.le_add_right _ _
  split
  · exact Nat.le_add_right _ _
  split
  · exact Nat.le_add_right _ _
  · exact Nat.le_refl _

theorem mem_expand_iff (c c' : Candidate) (ub n : Nat) :
    c' ∈ c.expand ub n ↔ ∃ s, s < n ∧ s ≠ c.lastSymbol ∧
      c' = c.expand_one s (c.number_of_permutations == ub) n := by
  simp only [Candidate.expand, List.mem_map, List.mem_filter, List.mem_range,
    decide_eq_true_eq]
  constructor
  · rintro ⟨s, ⟨hs1, hs2⟩, hs3⟩
    exact ⟨s, hs1, hs2, hs3.symm⟩
  · rintro ⟨s, hs1, hs2, hs3⟩
    exact ⟨s, ⟨hs1, hs2⟩, hs3.symm⟩

theorem inv_seed (n : Nat) (hn : 2 ≤ n) : Inv n (Candidate.seed n) := by
  refine ⟨?_, ?_, ?_, ?_⟩
  · show List.range' 1 (n - 1) ≠ []
    intro hnil
    have := congrArg List.length hnil
    simp only [List.length_range', List.length_nil] at this
    omega
  · exact List.nodup_range' 1 (n - 1)
  · intro s hs
    show s < n
    have := List.mem_range'_1.mp hs
    omega
  · simp [Candidate.seed]

theorem reachable_inv (n : Nat) (c : Candidate) (hn : 2 ≤ n)
    (h : Reachable n c) : Inv n c := by
  induction h with
  | seed => exact inv_seed n hn
  | step c c' ub hr hmem ih =>
    rcases (mem_expand_iff c c' ub n).mp hmem with ⟨s, hs1, hs2, hs3⟩
    have ht : c'.tail_of_string = c.build_tail s n := by
      rw [hs3]; exact expand_one_tail c s _ n
    have hb := build_tail_inv c s n ih hn hs1
    exact ⟨by rw [ht]; exact hb.1, by rw [ht]; exact hb.2.1,
      by rw [ht]; exact hb.2.2.1, by rw [ht]; exact hb.2.2.2⟩

theorem reachable_runMoves (n ub : Nat) (ms : List Nat) :
    ∀ c, Reachable n c → validMoves c ub n ms = true →
      Reachable n (runMoves c ub n ms) := by
  induction ms with
  | nil => intro c h _; exact h
  | cons s rest ih =>
    intro c h hv
    simp only [validMoves, Bool.and_eq_true, decide_eq_true_eq] at hv
    obtain ⟨⟨hs1, hs2⟩, hrest⟩ := hv
    simp only [runMoves]
    exact ih _ (Reachable.step c _ ub h
      ((mem_expand_iff c _ ub n).mpr ⟨s, hs1, hs2, rfl⟩)) hrest

theorem length_filter_ne (n a : Nat) (ha : a < n) :
    ((List.range n).filter (fun s => decide (s ≠ a))).length = n - 1 := by
  induction n with
  | zero => omega
  | succ m ih =>
    rw [List.range_succ, List.filter_append, List.length_append]
    by_cases hm : a = m
    · have hkeep : (List.range m).filter (fun s => decide (s ≠ a)) = List.range m := by
        apply List.filter_eq_self.mpr
        intro x hx
        have := List.mem_range.mp hx
        simp only [decide_eq_true_eq]
        omega
      rw [hkeep]
      have hdrop : ([m].filter (fun s => decide (s ≠ a))).length = 0 := by
        simp [hm]
      rw [hdrop, List.length_range]
      omega
    · have ham : a < m := by omega
      rw [ih ham]
      have hone : ([m].filter (fun s => decide (s ≠ a))).length = 1 := by
        have hma : ¬ m = a := by omega
        simp [hma]
      rw [hone]
      omega

theorem lastSymbol_lt (n : Nat) (c : Candidate) (hn : 2 ≤ n)
    (hr : Reachable n c) : c.lastSymbol < n := by
  obtain ⟨hne, _, hlt, _⟩ := reachable_inv n c hn hr
  exact hlt _ (getLastD_mem _ hne 0)

/-- The first missing symbol scanned by `seen_next_tail_as_well` is the
unique symbol below `n` absent from a full-length duplicate-free tail, so the
check tests exactly the id of the tail extended by that missing symbol. -/
theorem seen_next_tail_spec (c : Candidate) (t : List Nat) (n m : Nat)
    (hnd : t.Nodup) (hlt : ∀ x ∈ t, x < n) (hlen : t.length = n - 1) (hn : 2 ≤ n)
    (hm : m < n) (hmnot : ¬ m ∈ t) :
    c.seen_next_tail_as_well t n
      = decide (Candidate.permutation_id t m ∈ c.permutations_seen) := by
  unfold Candidate.seen_next_tail_as_well
  cases hf : (List.range n).find? (fun s => decide (¬ s ∈ t)) with
  | none =>
    exfalso
    have h1 := List.find?_eq_none.mp hf m (List.mem_range.mpr hm)
    simp only [decide_eq_true_eq] at h1
    exact h1 hmnot
  | some s2 =>
    have hs2mem := List.mem_of_find?_eq_some hf
    have hs2prop := List.find?_some hf
    simp only [decide_eq_true_eq] at hs2prop
    have hs2lt : s2 < n := List.mem_range.mp hs2mem
    have hT : t.toFinset ⊆ Finset.range n := by
      intro x hx
      rw [Finset.mem_range]
      exact hlt x (List.mem_toFinset.mp hx)
    have hTcard : t.toFinset.card = n - 1 := by
      rw [List.toFinset_card_of_nodup hnd, hlen]
    have hsd : (Finset.range n \ t.toFinset).card = 1 := by
      rw [Finset.card_sdiff hT, Finset.card_range, hTcard]
      omega
    have heq : s2 = m := by
      have h1 : s2 ∈ Finset.range n \ t.toFinset := by
        rw [Finset.mem_sdiff, Finset.mem_range]
        exact ⟨hs2lt, fun hx => hs2prop (List.mem_toFinset.mp hx)⟩
      have h2 : m ∈ Finset.range n \ t.toFinset := by
        rw [Finset.mem_sdiff, Finset.mem_range]
        exact ⟨hm, fun hx => hmnot (List.mem_toFinset.mp hx)⟩
      exact Finset.card_le_one.mp (le_of_eq hsd) s2 h1 m h2
    rw [heq]

/-! ### Claims C2, C3, C4, C9, C10 about the search state -/

/-- C2: on a reachable state, `expand` produces exactly `n - 1` children —
one per symbol in `[0, n)` other than the last tail symbol (the produced
child for such a symbol is a member of the output), and none for the last
symbol (every child's tail ends in a symbol different from it). -/
theorem claim_c2 (n ub : Nat) (c c' : Candidate) (s : Nat)
    (hn : 2 ≤ n) (hr : Reachable n c) (hs1 : s < n) (hs2 : s ≠ c.lastSymbol)
    (hc' : c' ∈ c.expand ub n) :
    (c.expand ub n).length = n - 1 ∧
    c.expand_one s (c.number_of_permutations == ub) n ∈ c.expand ub n ∧
    c'.tail_of_string.getLastD 0 ≠ c.lastSymbol := by
  refine ⟨?_, ?_, ?_⟩
  · unfold Candidate.expand
    rw [List.length_map]
    exact length_filter_ne n c.lastSymbol (lastSymbol_lt n c hn hr)
  · exact (mem_expand_iff c _ ub n).mpr ⟨s, hs1, hs2, rfl⟩
  · rcases (mem_expand_iff c c' ub n).mp hc' with ⟨t, ht1, ht2, ht3⟩
    rw [ht3, expand_one_tail, build_tail_getLast]
    exact ht2

theorem claim_c2_witness :
    (2 ≤ 3 ∧ (0 : Nat) < 3 ∧ (0 : Nat) ≠ (Candidate.seed 3).lastSymbol ∧
      (Candidate.seed 3).expand_one 0
          ((Candidate.seed 3).number_of_permutations == 10) 3
        ∈ (Candidate.seed 3).expand 10 3) ∧
    ((Candidate.seed 3).expand 10 3).length = 3 - 1 ∧
    ((Candidate.seed 3).expand_one 0
        ((Candidate.seed 3).number_of_permutations == 10) 3).tail_of_string.getLastD 0
      ≠ (Candidate.seed 3).lastSymbol :=
  ⟨⟨by omega, by decide, by decide, by decide⟩,
    (claim_c2 3 10 (Candidate.seed 3)
      ((Candidate.seed 3).expand_one 0
        ((Candidate.seed 3).number_of_permutations == 10) 3) 0
      (by omega) Reachable.seed (by decide) (by decide) (by decide)).1,
    (claim_c2 3 10 (Candidate.seed 3)
      ((Candidate.seed 3).expand_one 0
        ((Candidate.seed 3).number_of_permutations == 10) 3) 0
      (by omega) Reachable.seed (by decide) (by decide) (by decide)).2.2⟩

/-- C3: every child produced by `expand` from a reachable parent keeps all of
the parent's covered permutations, has at least the parent's wasted-symbol
count, and has a tail window of length at most `n - 1`. -/
theorem claim_c3 (n ub : Nat) (c c' : Candidate) (hn : 2 ≤ n)
    (hr : Reachable n c) (hc' : c' ∈ c.expand ub n) :
    c.permutations_seen ⊆ c'.permutations_seen ∧
    c.wasted_symbols ≤ c'.wasted_symbols ∧
    c'.tail_of_string.length ≤ n - 1 := by
  rcases (mem_expand_iff c c' ub n).mp hc' with ⟨s, hs1, hs2, hs3⟩
  refine ⟨?_, ?_, ?_⟩
  · rw [hs3]
    exact expand_one_seen c s _ n
  · rw [hs3]
    exact expand_one_wasted c s _ n
  · rw [hs3, expand_one_tail]
    exact (build_tail_inv c s n (reachable_inv n c hn hr) hn hs1).2.2.2

theorem claim_c3_witness :
    (2 ≤ 3 ∧
      (Candidate.seed 3).expand_one 0
          ((Candidate.seed 3).number_of_permutations == 10) 3
        ∈ (Candidate.seed 3).expand 10 3) ∧
    (Candidate.seed 3).permutations_seen
      ⊆ ((Candidate.seed 3).expand_one 0
          ((Candidate.seed 3).number_of_permutations == 10) 3).permutations_seen ∧
    (Candidate.seed 3).wasted_symbols
      ≤ ((Candidate.seed 3).expand_one 0
          ((Candidate.seed 3).number_of_permutations == 10) 3).wasted_symbols ∧
    ((Candidate.seed 3).expand_one 0
        ((Candidate.seed 3).number_of_permutations == 10) 3).tail_of_string.length
      ≤ 3 - 1 :=
  ⟨⟨by omega, by decide⟩,
    claim_c3 3 10 (Candidate.seed 3)
      ((Candidate.seed 3).expand_one 0
        ((Candidate.seed 3).number_of_permutations == 10) 3)
      (by omega) Reachable.seed (by decide)⟩

/-- C4: in the fully-warmed branch of `expand_one` (parent and child tails of
full length `n - 1`, candidate symbol not the parent tail's first symbol,
coverage ceiling not reached), a child whose candidate permutation is already
covered pays penalty 2 when the next hypothetical tail — the new tail with
its one missing symbol appended — is also covered and 1 otherwise, with the
covered set unchanged; an uncovered candidate permutation is inserted with
the wasted-symbol count unchanged. -/
theorem claim_c4 (n ub : Nat) (c : Candidate) (s m : Nat)
    (hn : 2 ≤ n) (hr : Reachable n c) (hs : s < n)
    (hpt : c.tail_of_string.length = n - 1)
    (hnt : (c.build_tail s n).length = n - 1)
    (hfirst : s ≠ c.tail_of_string.headD 0)
    (hub : c.number_of_permutations ≠ ub)
    (hm : m < n) (hmnot : ¬ m ∈ c.build_tail s n) :
    (Candidate.permutation_id c.tail_of_string s ∈ c.permutations_seen →
      (c.expand_one s (c.number_of_permutations == ub) n).wasted_symbols
        = c.wasted_symbols +
          (if Candidate.permutation_id (c.build_tail s n) m ∈ c.permutations_seen
            then 2 else 1) ∧
      (c.expand_one s (c.number_of_permutations == ub) n).permutations_seen
        = c.permutations_seen) ∧
    (¬ Candidate.permutation_id c.tail_of_string s ∈ c.permutations_seen →
      (c.expand_one s (c.number_of_permutations == ub) n).permutations_seen
        = insert (Candidate.permutation_id c.tail_of_string s)
            c.permutations_seen ∧
      (c.expand_one s (c.number_of_permutations == ub) n).wasted_symbols
        = c.wasted_symbols) := by
  have hinv := reachable_inv n c hn hr
  have hbt := build_tail_inv c s n hinv hn hs
  have hlf1 : Candidate.less_than_full c.tail_of_string n = false := by
    simp only [Candidate.less_than_full, decide_eq_false_iff_not]
    omega
  have hlf2 : Candidate.less_than_full (c.build_tail s n) n = false := by
    simp only [Candidate.less_than_full, decide_eq_false_iff_not]
    omega
  have hsw : c.tail_starts_with s = false := by
    simp only [Candidate.tail_starts_with, decide_eq_false_iff_not]
    exact hfirst
  have hub' : (c.number_of_permutations == ub) = false :=
    beq_eq_false_iff_ne.mpr hub
  have hexp : c.expand_one s (c.number_of_permutations == ub) n
      = (if Candidate.permutation_id c.tail_of_string s ∈ c.permutations_seen then
          c.candidate_with_wasted_symbol (c.build_tail s n)
            (if c.seen_next_tail_as_well (c.build_tail s n) n then 2 else 1)
        else
          c.candidate_with_new_permutation (c.build_tail s n)
            (Candidate.permutation_id c.tail_of_string s)) := by
    simp only [Candidate.expand_one]
    rw [hlf1, hlf2, hsw, hub']
    simp only [if_neg Bool.false_ne_true]
  have hsn := seen_next_tail_spec c (c.build_tail s n) n m hbt.2.1 hbt.2.2.1
    hnt hn hm hmnot
  constructor
  · intro hmem
    rw [hexp, if_pos hmem]
    constructor
    · show c.wasted_symbols + _ = _
      rw [hsn]
      by_cases hseen :
          Candidate.permutation_id (c.build_tail s n) m ∈ c.permutations_seen
      · simp [hseen]
      · simp [hseen]
    · rfl
  · intro hmem
    rw [hexp, if_neg hmem]
    exact ⟨rfl, rfl⟩

theorem claim_c4_witness :
    (2 ≤ 3 ∧ (0 : Nat) < 3 ∧
      (Candidate.seed 3).tail_of_string.length = 3 - 1 ∧
      ((Candidate.seed 3).build_tail 0 3).length = 3 - 1 ∧
      (0 : Nat) ≠ (Candidate.seed 3).tail_of_string.headD 0 ∧
      (Candidate.seed 3).number_of_permutations ≠ 5 ∧
      (1 : Nat) < 3 ∧ ¬ (1 : Nat) ∈ (Candidate.seed 3).build_tail 0 3 ∧
      ¬ Candidate.permutation_id (Candidate.seed 3).tail_of_string 0
        ∈ (Candidate.seed 3).permutations_seen) ∧
    ((Candidate.seed 3).expand_one 0
        ((Candidate.seed 3).number_of_permutations == 5) 3).permutations_seen
      = insert (Candidate.permutation_id (Candidate.seed 3).tail_of_string 0)
          (Candidate.seed 3).permutations_seen ∧
    ((Candidate.seed 3).expand_one 0
        ((Candidate.seed 3).number_of_permutations == 5) 3).wasted_symbols
      = (Candidate.seed 3).wasted_symbols :=
  ⟨⟨by omega, by decide, by decide, by decide, by decide, by decide, by decide,
      by decide, by decide⟩,
    (claim_c4 3 5 (Candidate.seed 3) 0 1 (by omega) Reachable.seed (by decide) (by decide)
      (by decide) (by decide) (by decide) (by decide) (by decide)).2 (by decide)⟩

/-- C9 (amended): for every reachable state, `futureWaste(n) = 0` exactly
when the tail window has full length `n - 1`, and hence
`totalWasteEstimate(n) = wastedSymbols` exactly when the tail is full.  Full
coverage alone does not imply the equality: expanding a terminal state can
shrink its tail while coverage stays at `n!` (see the counterexample). -/
theorem claim_c9 (n : Nat) (c : Candidate) (hn : 2 ≤ n) (hr : Reachable n c) :
    (c.future_waste n = 0 ↔ c.tail_of_string.length = n - 1) ∧
    (c.total_waste n = c.wasted_symbols ↔ c.tail_of_string.length = n - 1) := by
  obtain ⟨hne, hnd, hlt, hlen⟩ := reachable_inv n c hn hr
  have hlen1 : 1 ≤ c.tail_of_string.length := by
    cases hcase : c.tail_of_string with
    | nil => exact absurd hcase hne
    | cons a as => simp [hcase]
  constructor
  · show n - c.tail_of_string.length - 1 = 0 ↔ _
    omega
  · show c.wasted_symbols + (n - c.tail_of_string.length - 1)
      = c.wasted_symbols ↔ _
    omega

/-- C9 counterexample: running the 33-symbol minimal superpermutation walk
for n = 4 and then one further expansion step that shortens the tail yields a
reachable state with coverage `4! = 24` whose `total_waste` exceeds its
`wasted_symbols` — full coverage does not force
`totalWasteEstimate = wastedSymbols`. -/
theorem claim_c9_counterexample :
    Reachable 4 (runMoves (Candidate.seed 4) 1000 4 c9Moves) ∧
    (runMoves (Candidate.seed 4) 1000 4 c9Moves).number_of_permutations
      = Nat.factorial 4 ∧
    (runMoves (Candidate.seed 4) 1000 4 c9Moves).total_waste 4
      ≠ (runMoves (Candidate.seed 4) 1000 4 c9Moves).wasted_symbols :=
  ⟨reachable_runMoves 4 1000 c9Moves (Candidate.seed 4) Reachable.seed
      (by decide),
    by decide, by decide⟩

theorem claim_c9_witness :
    (2 ≤ 3 ∧ ((Candidate.seed 3).future_waste 3 = 0
        ↔ (Candidate.seed 3).tail_of_string.length = 3 - 1)) ∧
    ((Candidate.seed 3).total_waste 3 = (Candidate.seed 3).wasted_symbols
      ↔ (Candidate.seed 3).tail_of_string.length = 3 - 1) :=
  ⟨⟨by omega, (claim_c9 3 (Candidate.seed 3) (by omega) Reachable.seed).1⟩,
    (claim_c9 3 (Candidate.seed 3) (by omega) Reachable.seed).2⟩

/-- C10: on every reachable state the tail window consists of pairwise
distinct symbols of `[0, n)`, is non-empty, has length at most `n - 1`, and
satisfies `length + 1 ≤ n`, so the `usize` subtraction in
`future_waste = n - len(tail) - 1` never underflows:
`future_waste + (len(tail) + 1) = n` holds exactly. -/
theorem claim_c10 (n : Nat) (c : Candidate) (s : Nat) (hn : 2 ≤ n)
    (hr : Reachable n c) (hs : s ∈ c.tail_of_string) :
    c.tail_of_string.Nodup ∧ s < n ∧ c.tail_of_string ≠ [] ∧
    c.tail_of_string.length ≤ n - 1 ∧ c.tail_of_string.length + 1 ≤ n ∧
    c.future_waste n + (c.tail_of_string.length + 1) = n := by
  obtain ⟨hne, hnd, hlt, hlen⟩ := reachable_inv n c hn hr
  have hlen1 : 1 ≤ c.tail_of_string.length := by
    cases hcase : c.tail_of_string with
    | nil => exact absurd hcase hne
    | cons a as => simp [hcase]
  refine ⟨hnd, hlt s hs, hne, hlen, by omega, ?_⟩
  show n - c.tail_of_string.length - 1 + (c.tail_of_string.length + 1) = n
  omega

theorem claim_c10_witness :
    (2 ≤ 3 ∧ (1 : Nat) ∈ (Candidate.seed 3).tail_of_string) ∧
    ((Candidate.seed 3).tail_of_string.Nodup ∧ (1 : Nat) < 3 ∧
      (Candidate.seed 3).tail_of_string ≠ [] ∧
      (Candidate.seed 3).tail_of_string.length ≤ 3 - 1 ∧
      (Candidate.seed 3).tail_of_string.length + 1 ≤ 3 ∧
      (Candidate.seed 3).future_waste 3
        + ((Candidate.seed 3).tail_of_string.length + 1) = 3) :=
  ⟨⟨by omega, by decide⟩,
    claim_c10 3 (Candidate.seed 3) 1 (by omega) Reachable.seed (by decide)⟩

/-! ### Frontier lemmas and claim C1 -/

theorem pickBest_eq_none (l : List (Nat × Nat × Candidate)) :
    pickBest l = none ↔ l = [] := by
  cases l with
  | nil => simp [pickBest]
  | cons e es =>
    constructor
    · intro h
      exfalso
      simp only [pickBest] at h
      cases hp : pickBest es with
      | none => rw [hp] at h; exact Option.noConfusion h
      | some b =>
        rw [hp] at h
        have h' : (if betterKey (b.1, b.2.1) (e.1, e.2.1) = true
            then some b else some e) = none := h
        by_cases hb : betterKey (b.1, b.2.1) (e.1, e.2.1) = true
        · rw [if_pos hb] at h'
          exact Option.noConfusion h'
        · rw [if_neg hb] at h'
          exact Option.noConfusion h'
    · intro h
      exact absurd h (List.cons_ne_nil e es)

theorem pickBest_spec (l : List (Nat × Nat × Candidate)) (e : Nat × Nat × Candidate)
    (h : pickBest l = some e) :
    e ∈ l ∧ ∀ e2 ∈ l, e.1 < e2.1 ∨ (e.1 = e2.1 ∧ e2.2.1 ≤ e.2.1) := by
  induction l generalizing e with
  | nil => simp [pickBest] at h
  | cons hd tl ih =>
    simp only [pickBest] at h
    cases hp : pickBest tl with
    | none =>
      rw [hp] at h
      cases h
      have htl : tl = [] := (pickBest_eq_none tl).mp hp
      subst htl
      refine ⟨List.mem_cons_self _ _, ?_⟩
      intro e2 he2
      rcases List.mem_cons.mp he2 with he2 | he2
      · subst he2
        right
        exact ⟨rfl, le_refl _⟩
      · simp at he2
    | some b =>
      rw [hp] at h
      have h' : (if betterKey (b.1, b.2.1) (hd.1, hd.2.1) = true
          then some b else some hd) = some e := h
      obtain ⟨hbmem, hbdom⟩ := ih b hp
      by_cases hb : betterKey (b.1, b.2.1) (hd.1, hd.2.1) = true
      · rw [if_pos hb] at h'
        cases h'
        refine ⟨List.mem_cons_of_mem _ hbmem, ?_⟩
        intro e2 he2
        rcases List.mem_cons.mp he2 with he2 | he2
        · subst he2
          simp only [betterKey, Bool.or_eq_true, Bool.and_eq_true,
            decide_eq_true_eq] at hb
          rcases hb with h1 | ⟨h1, h2⟩
          · left
            exact h1
          · right
            exact ⟨h1, le_of_lt h2⟩
        · exact hbdom e2 he2
      · rw [if_neg hb] at h'
        cases h'
        simp only [betterKey, Bool.or_eq_true, Bool.and_eq_true,
          decide_eq_true_eq, not_or, not_and, not_lt] at hb
        obtain ⟨hb1, hb2⟩ := hb
        refine ⟨List.mem_cons_self _ _, ?_⟩
        intro e2 he2
        rcases List.mem_cons.mp he2 with he2 | he2
        · subst he2
          right
          exact ⟨rfl, le_refl _⟩
        · rcases hbdom e2 he2 with h1 | ⟨h21, h22⟩
          · left
            omega
          · by_cases hlt2 : hd.1 < b.1
            · left
              omega
            · have heq : b.1 = hd.1 := by omega
              have h3 := hb2 heq
              right
              exact ⟨by omega, by omega⟩

theorem frontier_wf_new (n : Nat) : Frontier.Wf Frontier.new n := by
  intro e he
  simp [Frontier.new] at he

theorem frontier_wf_add (f : Frontier) (c : Candidate) (n : Nat) (h : f.Wf n) :
    (f.add c n).Wf n := by
  intro e he
  simp only [Frontier.add] at he
  rcases List.mem_append.mp he with h1 | h2
  · exact h e h1
  · rcases List.mem_cons.mp h2 with h3 | h3
    · subst h3
      exact ⟨rfl, rfl⟩
    · simp at h3

theorem frontier_wf_next (f f2 : Frontier) (c : Candidate) (n : Nat)
    (h : f.Wf n) (hn : f.next = some (c, f2)) : f2.Wf n := by
  intro e he
  apply h
  simp only [Frontier.next] at hn
  cases hp : pickBest f.entries with
  | none =>
    rw [hp] at hn
    exact Option.noConfusion hn
  | some e0 =>
    rw [hp] at hn
    have hpair := Option.some.inj hn
    injection hpair with h1 h2
    have he' : e ∈ f.entries.erase e0 := by rw [← h2] at he; exact he
    exact List.erase_subset e0 f.entries he'

/-- C1: on every frontier whose entries carry the keys computed by `add` (as
all frontiers built by insertions and removals do), `removeBest` returns
`none` exactly when no states are held; otherwise it removes and returns one
held state whose `total_waste` is minimal among all held states, with ties
broken by the largest `permutations_seen` count. -/
theorem claim_c1 (n : Nat) (f : Frontier) (c : Candidate) (f2 : Frontier)
    (e : Nat × Nat × Candidate) (hwf : f.Wf n) :
    (f.next = none ↔ f.entries = []) ∧
    (f.next = some (c, f2) →
      c ∈ f.entries.map (fun e2 => e2.2.2) ∧
      f2.entries.length + 1 = f.entries.length ∧
      (e ∈ f.entries →
        c.total_waste n ≤ e.2.2.total_waste n ∧
        (e.2.2.total_waste n = c.total_waste n →
          e.2.2.number_of_permutations ≤ c.number_of_permutations))) := by
  constructor
  · simp only [Frontier.next]
    cases hp : pickBest f.entries with
    | none =>
      simp only [true_iff]
      exact (pickBest_eq_none f.entries).mp hp
    | some e0 =>
      constructor
      · intro h
        exact Option.noConfusion h
      · intro h
        exfalso
        rw [h] at hp
        simp [pickBest] at hp
  · intro hnext
    simp only [Frontier.next] at hnext
    cases hp : pickBest f.entries with
    | none =>
      rw [hp] at hnext
      exact Option.noConfusion hnext
    | some e0 =>
      rw [hp] at hnext
      have hpair := Option.some.inj hnext
      injection hpair with h1 h2
      have hc : c = e0.2.2 := h1.symm
      have hf2 : f2.entries = f.entries.erase e0 := by rw [← h2]
      obtain ⟨hmem, hdom⟩ := pickBest_spec f.entries e0 hp
      refine ⟨?_, ?_, ?_⟩
      · rw [hc]
        exact List.mem_map.mpr ⟨e0, hmem, rfl⟩
      · rw [hf2, List.length_erase_of_mem hmem]
        have hlp : 0 < f.entries.length :=
          List.length_pos.mpr (List.ne_nil_of_mem hmem)
        omega
      · intro hemem
        obtain ⟨hw1, hw2⟩ := hwf e hemem
        obtain ⟨hw01, hw02⟩ := hwf e0 hmem
        have hk1 : c.total_waste n = e0.1 := by rw [hc, hw01]
        have hk2 : e.2.2.total_waste n = e.1 := hw1.symm
        have hk3 : e.2.2.number_of_permutations = e.2.1 := hw2.symm
        have hk4 : c.number_of_permutations = e0.2.1 := by rw [hc, hw02]
        rw [hk1, hk2, hk3, hk4]
        rcases hdom e hemem with h3 | h3
        · exact ⟨by omega, by omega⟩
        · exact ⟨by omega, fun _ => h3.2⟩

theorem claim_c1_witness :
    (Frontier.Wf exampleFrontier 3 ∧
      (6, 1, slowCandidate) ∈ exampleFrontier.entries ∧
      exampleFrontier.next = some (Candidate.seed 3,
        { entries := [(6, 1, slowCandidate)] })) ∧
    (exampleFrontier.next = none ↔ exampleFrontier.entries = []) ∧
    Candidate.seed 3 ∈ exampleFrontier.entries.map (fun e2 => e2.2.2) ∧
    ({ entries := [(6, 1, slowCandidate)] } : Frontier).entries.length + 1
      = exampleFrontier.entries.length ∧
    (Candidate.seed 3).total_waste 3 ≤ slowCandidate.total_waste 3 :=
  ⟨⟨by decide, by decide, by decide⟩,
    (claim_c1 3 exampleFrontier (Candidate.seed 3)
      { entries := [(6, 1, slowCandidate)] } (6, 1, slowCandidate) (by decide)).1,
    ((claim_c1 3 exampleFrontier (Candidate.seed 3)
      { entries := [(6, 1, slowCandidate)] } (6, 1, slowCandidate) (by decide)).2
        (by decide)).1,
    ((claim_c1 3 exampleFrontier (Candidate.seed 3)
      { entries := [(6, 1, slowCandidate)] } (6, 1, slowCandidate) (by decide)).2
        (by decide)).2.1,
    (((claim_c1 3 exampleFrontier (Candidate.seed 3)
      { entries := [(6, 1, slowCandidate)] } (6, 1, slowCandidate) (by decide)).2
        (by decide)).2.2 (by decide)).1⟩

end Superperm
